import Mathlib

/-!
Verification of the raster grid-alignment and aggregation core of the
tree-classification repository.

The Python sources are shallowly embedded:
* machine floats become exact rationals (ℚ); NaN / nodata becomes
  Option (none = missing);
* numpy arrays become index functions n → n → Option ℚ together with
  explicit dimensions;
* fallible code returns Except.

Embedded source locations:
* scripts/elevation/berlin/download_elevation.py
    filter_tiles_by_coordinates, mosaic_and_clip
* scripts/chm/create_chm.py
    compute_chm, apply_quality_filters
* scripts/chm/resample_chm.py
    resample_chm_aggregation (std branch)
* scripts/validation/validate_data.py
    check_0_3_resample_chm_extended (moment-based std),
    check_0_4_correlation_offset_detection (offset scan)
-/

/-- Python `int(q)` on a real number truncates toward zero. -/
def pyTrunc (q : ℚ) : ℤ :=
  if q < 0 then -Int.floor (-q) else Int.floor q

theorem floor_le_pyTrunc (q : ℚ) : Int.floor q ≤ pyTrunc q := by
  unfold pyTrunc
  split
  · rw [Int.floor_neg]
    have := Int.floor_le_ceil q
    omega
  · exact le_refl _

theorem pyTrunc_le_ceil (q : ℚ) : pyTrunc q ≤ Int.ceil q := by
  unfold pyTrunc
  split
  · rw [Int.floor_neg]
    omega
  · exact Int.floor_le_ceil q

/-- Python strings are modeled as lists of characters (Lean's `String`
primitives are byte-level and opaque to the kernel). `replaceAllAux`
realizes `str.replace(pat, repl)`: scan left to right, substituting
every non-overlapping occurrence; the fuel argument (the original
length) makes the recursion structural. -/
def replaceAllAux (pat repl : List Char) : ℕ → List Char → List Char
  | _, [] => []
  | 0, s => s
  | fuel + 1, c :: rest =>
      if pat ≠ [] ∧ pat.isPrefixOf (c :: rest) then
        repl ++ replaceAllAux pat repl fuel ((c :: rest).drop pat.length)
      else
        c :: replaceAllAux pat repl fuel rest

/-- Python `s.replace(pat, repl)` for a nonempty pattern. -/
def replaceAll (s pat repl : List Char) : List Char :=
  replaceAllAux pat repl s.length s

/-- Python `s.split(sep)` for a one-character separator (the script
splits on `"_"`). -/
def splitOnChar (sep : Char) : List Char → List (List Char)
  | [] => [[]]
  | c :: rest =>
      match splitOnChar sep rest with
      | [] => [[c]]
      | t :: ts => if c = sep then [] :: t :: ts else (c :: t) :: ts

def digitVal (c : Char) : Option ℕ :=
  if '0' ≤ c ∧ c ≤ '9' then some (c.toNat - '0'.toNat) else none

def parseDigits (l : List Char) : Option ℕ :=
  if l = [] then none
  else
    l.foldl (fun acc c =>
      match acc, digitVal c with
      | some n, some d => some (n * 10 + d)
      | _, _ => none) (some 0)

/-- Python `int(s)`: surrounding spaces stripped, an optional sign,
then a nonempty digit run; anything else raises `ValueError` (`none`).
(Digit-group underscores are immaterial here: the parsed parts come
from splitting on `"_"`.) -/
def pyInt (l : List Char) : Option ℤ :=
  match ((l.dropWhile (fun c => c = ' ')).reverse.dropWhile
      (fun c => c = ' ')).reverse with
  | '-' :: ds => (parseDigits ds).map (fun n => -(n : ℤ))
  | '+' :: ds => (parseDigits ds).map (fun n => (n : ℤ))
  | ds => (parseDigits ds).map (fun n => (n : ℤ))

/-- A catalog entry as produced by `fetch_atom_feed`: a dict with the
tile title and its download URL. -/
structure Tile where
  title : List Char
  url : List Char
deriving DecidableEq

/-- The `total_bounds` of the boundary GeoDataFrame after reprojection
into the tile catalog CRS (EPSG:25833), in meters. -/
structure Bounds where
  minx : ℚ
  miny : ℚ
  maxx : ℚ
  maxy : ℚ

/-- `filter_tiles_by_coordinates`: title cleanup before splitting,
`tile["title"].replace("DOM1 ", "").replace("DGM1 ", "")`. -/
def cleanTitle (t : List Char) : List Char :=
  replaceAll (replaceAll t ("DOM1 ".toList) []) ("DGM1 ".toList) []

/-- The km-index window computed by `filter_tiles_by_coordinates`:
`int(minx/1000) - 2`, …, `int(maxx/1000) + 1 + 2` (buffer_km = 2). -/
structure KmWindow where
  minxKm : ℤ
  minyKm : ℤ
  maxxKm : ℤ
  maxyKm : ℤ

def kmWindow (b : Bounds) : KmWindow :=
  { minxKm := pyTrunc (b.minx / 1000) - 2
    minyKm := pyTrunc (b.miny / 1000) - 2
    maxxKm := pyTrunc (b.maxx / 1000) + 1 + 2
    maxyKm := pyTrunc (b.maxy / 1000) + 1 + 2 }

/-- Loop body of `filter_tiles_by_coordinates` for one tile: split the
cleaned title on `_`; with at least two parts, parse both as `int` —
success runs the window test, a `ValueError` (either part non-numeric)
keeps the tile; with fewer than two parts the loop body appends
nothing, so the tile is dropped. -/
def keepTile (w : KmWindow) (t : Tile) : Bool :=
  let parts := splitOnChar '_' (cleanTitle t.title)
  if parts.length ≥ 2 then
    match pyInt (parts.getD 0 []), pyInt (parts.getD 1 []) with
    | some x, some y =>
        decide (w.minxKm ≤ x ∧ x ≤ w.maxxKm ∧ w.minyKm ≤ y ∧ y ≤ w.maxyKm)
    | _, _ => true
  else false

/-- `filter_tiles_by_coordinates(tiles, boundary_gdf)` from
scripts/elevation/berlin/download_elevation.py, with the boundary
already reduced to its `total_bounds` in the tile CRS. -/
def filter_tiles_by_coordinates (b : Bounds) (tiles : List Tile) : List Tile :=
  tiles.filter (keepTile (kmWindow b))

/-- `compute_chm(dom, dgm)`: `chm = dom - dgm`, then
`chm[np.isnan(dom) | np.isnan(dgm)] = np.nan`. -/
def compute_chm (dom dgm : ℕ → ℕ → Option ℚ) : ℕ → ℕ → Option ℚ :=
  fun i j =>
    match dom i j, dgm i j with
    | some a, some b => some (a - b)
    | _, _ => none

/-- `apply_quality_filters(chm, neg_threshold, max_threshold)` acting on
one pixel: `chm_clean[(chm_clean < neg_threshold) & ~isnan] = nan`,
then `chm_clean[chm_clean > max_threshold] = nan` (a NaN compares
false in numpy, so missing pixels stay missing). -/
def apply_quality_filters (negT maxT : ℚ) (chm : ℕ → ℕ → Option ℚ)
    : ℕ → ℕ → Option ℚ :=
  fun i j =>
    match chm i j with
    | none => none
    | some x => if x < negT then none else if x > maxT then none else some x

/-- One pixel-write of `rasterio.merge(..., method="first")`: a new
tile's value is copied only where the mosaic is still nodata. -/
def writeFirst (acc tile : ℕ → ℕ → Option ℚ) : ℕ → ℕ → Option ℚ :=
  fun i j =>
    match acc i j with
    | some v => some v
    | none => tile i j

/-- The merge step of `mosaic_and_clip`:
`merge(src_files, method="first")`, with every tile already resolved
into the pixel space of the output mosaic. -/
def mergeFirst (tiles : List (ℕ → ℕ → Option ℚ)) : ℕ → ℕ → Option ℚ :=
  tiles.foldl writeFirst (fun _ _ => none)

/-- The tile-opening phase of `mosaic_and_clip`
(scripts/elevation/berlin/download_elevation.py): raise on an empty
path list; open each path, skipping (with a warning) any that throws;
raise again if no openable tile remains; otherwise continue with the
opened tiles in order. `some r` models a path whose `rasterio.open`
succeeds with raster `r`; `none` models a corrupt tile. -/
def mosaicOpenPhase {R : Type} (paths : List (Option R)) : Except String (List R) :=
  if paths.length = 0 then
    Except.error "No GeoTIFF tiles to mosaic"
  else
    let srcFiles := paths.filterMap id
    if srcFiles.length = 0 then
      Except.error "No valid GeoTIFF tiles to mosaic"
    else
      Except.ok srcFiles

/-- A georeferenced fine raster (the 1m CHM read by `resample_chm`):
pixel grid plus an axis-aligned affine transform. `ox`, `oy` locate the
upper-left corner; `px`, `py` are the pixel width and the row step
(both positive, rows advancing in the row-axis direction). -/
structure GeoRaster where
  rows : ℕ
  cols : ℕ
  val : ℕ → ℕ → Option ℚ
  ox : ℚ
  oy : ℚ
  px : ℚ
  py : ℚ

/-- The coarse destination grid (`dst_shape`, `dst_transform`) taken
from the Sentinel-2 reference raster. -/
structure GridSpec where
  rows : ℕ
  cols : ℕ
  ox : ℚ
  oy : ℚ
  px : ℚ
  py : ℚ

/-- `block_size = int(dst_pixel_size / src_pixel_size)` in the std
branch of `resample_chm_aggregation`. -/
def blockSizeOf (g : GeoRaster) (d : GridSpec) : ℤ :=
  pyTrunc (d.px / g.px)

def listMean (l : List ℚ) : ℚ := l.sum / l.length

/-- `np.std(valid_values) ** 2`: the population variance (ddof = 0),
the mean squared deviation from the mean. -/
def popVar (l : List ℚ) : ℚ :=
  (l.map (fun x => (x - listMean l) ^ 2)).sum / l.length

/-- The valid values of the source block
`src_data[i*block_size : min(i*block_size+block_size, H),
          j*block_size : min(j*block_size+block_size, W)]`
in row-major order (the `min` clamps are realized by filtering the
in-range indices). -/
def blockValues (g : GeoRaster) (bs i j : ℕ) : List ℚ :=
  (List.range g.rows).flatMap (fun r =>
    if i * bs ≤ r ∧ r < i * bs + bs then
      (List.range g.cols).filterMap (fun c =>
        if j * bs ≤ c ∧ c < j * bs + bs then g.val r c else none)
    else [])

/-- The std branch of `resample_chm_aggregation`
(scripts/chm/resample_chm.py): per destination cell, materialize the
source block, collect its valid values, and emit `np.std(valid_values)`
when more than one, `0.0` for exactly one, and leave NaN for none.
The cell is modeled at the variance level: the script stores the
square root of this value, which theorems state with `Real.sqrt`. -/
def resample_chm_aggregation_std (g : GeoRaster) (bs i j : ℕ) : Option ℚ :=
  let validValues := blockValues g bs i j
  if 1 < validValues.length then some (popVar validValues)
  else if validValues.length = 1 then some 0
  else none

/-- Valid source values whose pixel centers fall inside destination
cell `(i, j)`: the sample underlying rasterio
`reproject(..., resampling=Resampling.average)` for same-CRS
axis-aligned grids, as invoked by `check_0_3_resample_chm_extended`. -/
def cellValues (g : GeoRaster) (d : GridSpec) (i j : ℕ) : List ℚ :=
  (List.range g.rows).flatMap (fun (r : ℕ) =>
    if d.oy + (i : ℚ) * d.py ≤ g.oy + ((r : ℚ) + 1/2) * g.py ∧
        g.oy + ((r : ℚ) + 1/2) * g.py < d.oy + ((i : ℚ) + 1) * d.py then
      (List.range g.cols).filterMap (fun (c : ℕ) =>
        if d.ox + (j : ℚ) * d.px ≤ g.ox + ((c : ℚ) + 1/2) * g.px ∧
            g.ox + ((c : ℚ) + 1/2) * g.px < d.ox + ((j : ℚ) + 1) * d.px then
          g.val r c
        else none)
    else [])

/-- Average-kernel resampling of one destination cell: the mean of the
valid source values in the cell footprint; NaN where none reach it. -/
def avgResampleCell (g : GeoRaster) (d : GridSpec) (i j : ℕ) : Option ℚ :=
  let l := cellValues g d i j
  if l.length = 0 then none else some (listMean l)

/-- `src_squared = src_data ** 2` (NaN squared stays NaN). -/
def squareRaster (g : GeoRaster) : GeoRaster :=
  { g with val := fun r c => (g.val r c).map (fun x => x ^ 2) }

/-- The std computation of `check_0_3_resample_chm_extended`
(scripts/validation/validate_data.py): average-kernel resampling of the
base raster and of its elementwise square, then
`np.sqrt(np.maximum(0, mean_squared - mean_data**2))`; modeled at the
variance level (the written raster holds the square root). -/
def check_0_3_std_cell (g : GeoRaster) (d : GridSpec) (i j : ℕ) : Option ℚ :=
  match avgResampleCell g d i j, avgResampleCell (squareRaster g) d i j with
  | some m, some m2 => some (max 0 (m2 - m ^ 2))
  | _, _ => none

theorem sum_map_sub_sq (l : List ℚ) (m : ℚ) :
    (l.map (fun x => (x - m) ^ 2)).sum
      = (l.map (fun x => x ^ 2)).sum - 2 * m * l.sum + l.length * m ^ 2 := by
  induction l with
  | nil => simp
  | cons a t ih =>
      simp only [List.map_cons, List.sum_cons, List.length_cons, ih]
      push_cast
      ring

theorem popVar_nonneg (l : List ℚ) : 0 ≤ popVar l := by
  unfold popVar
  apply div_nonneg
  · apply List.sum_nonneg
    intro x hx
    rcases List.mem_map.1 hx with ⟨y, _, rfl⟩
    exact sq_nonneg _
  · exact Nat.cast_nonneg _

/-- Moment identity: for a nonempty sample the mean squared deviation
equals `E[X²] - E[X]²`, and the `max(0, ·)` guard is the identity. -/
theorem popVar_eq_moment (l : List ℚ) (h : l ≠ []) :
    popVar l = max 0 (listMean (l.map (fun x => x ^ 2)) - (listMean l) ^ 2) := by
  have hn : (l.length : ℚ) ≠ 0 := by
    exact_mod_cast Nat.pos_iff_ne_zero.1 (List.length_pos.2 h)
  have hvar : popVar l = listMean (l.map (fun x => x ^ 2)) - (listMean l) ^ 2 := by
    unfold popVar listMean
    rw [sum_map_sub_sq, List.length_map]
    field_simp
    ring
  rw [hvar.symm, max_eq_right (popVar_nonneg l), hvar]

theorem natCast_le_add_half (a b : ℕ) : (a : ℚ) ≤ (b : ℚ) + 1/2 ↔ a ≤ b := by
  constructor
  · intro h
    by_contra hab
    push_neg at hab
    have hq : (b : ℚ) + 1 ≤ (a : ℚ) := by exact_mod_cast hab
    linarith
  · intro h
    have hq : (a : ℚ) ≤ (b : ℚ) := by exact_mod_cast h
    linarith

theorem natCast_add_half_lt (a b : ℕ) : (a : ℚ) + 1/2 < (b : ℚ) ↔ a < b := by
  constructor
  · intro h
    by_contra hab
    push_neg at hab
    have hq : (b : ℚ) ≤ (a : ℚ) := by exact_mod_cast hab
    linarith
  · intro h
    have hq : (a : ℚ) + 1 ≤ (b : ℚ) := by exact_mod_cast h
    linarith

/-- On one axis, a fine pixel center lies in coarse cell `i` of an
origin-aligned grid with pixel ratio `bs` exactly when its index lies
in the corresponding block index range. -/
theorem center_cond_iff (o p : ℚ) (hp : 0 < p) (bs i r : ℕ) :
    (o + (i : ℚ) * ((bs : ℚ) * p) ≤ o + ((r : ℚ) + 1/2) * p ∧
      o + ((r : ℚ) + 1/2) * p < o + ((i : ℚ) + 1) * ((bs : ℚ) * p))
    ↔ (i * bs ≤ r ∧ r < i * bs + bs) := by
  have h1 : o + (i : ℚ) * ((bs : ℚ) * p) ≤ o + ((r : ℚ) + 1/2) * p ↔ i * bs ≤ r := by
    rw [add_le_add_iff_left, ← mul_assoc, mul_le_mul_right hp,
      show ((i : ℚ) * (bs : ℚ)) = ((i * bs : ℕ) : ℚ) by push_cast; ring]
    exact natCast_le_add_half (i * bs) r
  have h2 : o + ((r : ℚ) + 1/2) * p < o + ((i : ℚ) + 1) * ((bs : ℚ) * p)
      ↔ r < i * bs + bs := by
    rw [add_lt_add_iff_left, ← mul_assoc, mul_lt_mul_right hp,
      show (((i : ℚ) + 1) * (bs : ℚ)) = ((i * bs + bs : ℕ) : ℚ) by push_cast; ring]
    exact natCast_add_half_lt r (i * bs + bs)
  rw [h1, h2]

/-- When the coarse grid shares the fine grid's origin and its pixel
is exactly `bs` fine pixels, the valid values reached by the average
kernel in a coarse cell are exactly the valid values of the source
block the std branch materializes. -/
theorem cellValues_eq_blockValues (g : GeoRaster) (d : GridSpec) (bs : ℕ)
    (hox : d.ox = g.ox) (hoy : d.oy = g.oy)
    (hpx : d.px = (bs : ℚ) * g.px) (hpy : d.py = (bs : ℚ) * g.py)
    (hgx : 0 < g.px) (hgy : 0 < g.py) (i j : ℕ) :
    cellValues g d i j = blockValues g bs i j := by
  unfold cellValues blockValues
  simp only [hox, hoy, hpx, hpy]
  simp only [center_cond_iff g.oy g.py hgy bs i, center_cond_iff g.ox g.px hgx bs j]

theorem cellValues_squareRaster (g : GeoRaster) (d : GridSpec) (i j : ℕ) :
    cellValues (squareRaster g) d i j
      = (cellValues g d i j).map (fun x => x ^ 2) := by
  show cellValues (squareRaster g) d i j
      = (cellValues g d i j).map (fun x => x ^ 2)
  unfold cellValues squareRaster
  rw [List.map_flatMap]
  congr 1
  funext r
  rw [apply_ite (List.map (fun x => x ^ 2)), List.map_filterMap]
  simp only [List.map_nil]
  split
  · refine congrArg (fun f => List.filterMap f (List.range g.cols)) (funext fun c => ?_)
    split
    · rfl
    · rfl
  · rfl

/-- Concrete 2×2 1m raster with values 0, 4, 8, 12 at origin (0, 0). -/
def srcQuad : GeoRaster :=
  { rows := 2, cols := 2
    val := fun r c =>
      some (if r = 0 then (if c = 0 then (0 : ℚ) else 4)
            else (if c = 0 then 8 else 12))
    ox := 0, oy := 0, px := 1, py := 1 }

/-- A one-cell 2m coarse grid whose origin is offset half a coarse cell
(one fine pixel) from the source grid. -/
def dstOffset : GridSpec :=
  { rows := 1, cols := 1, ox := 1, oy := 0, px := 2, py := 2 }

/-- A one-cell 2m coarse grid sharing the source origin. -/
def dstAligned : GridSpec :=
  { rows := 1, cols := 1, ox := 0, oy := 0, px := 2, py := 2 }

/-- C1 counterexample: on a coarse reference grid whose origin is offset
from the base raster, the std variant produced by
`resample_chm_aggregation` (block materialization from array index 0,
ignoring the destination transform) is not
`sqrt(max(0, E[X²] − E[X]²))` with the expectations taken by
average-kernel resampling onto that coarse grid: the block cell holds
variance 20 while the moment computation on the true cell footprint
yields 16, and the corresponding std values differ. -/
theorem resample_std_block_vs_moment_counterexample :
    blockSizeOf srcQuad dstOffset = 2 ∧
    resample_chm_aggregation_std srcQuad 2 0 0 = some 20 ∧
    check_0_3_std_cell srcQuad dstOffset 0 0 = some 16 ∧
    Real.sqrt 20 ≠ Real.sqrt 16 := by
  have hr2 : List.range 2 = [0, 1] := rfl
  have hbv : blockValues srcQuad 2 0 0 = [0, 4, 8, 12] := by decide
  have hcv : cellValues srcQuad dstOffset 0 0 = [4, 12] := by
    simp only [cellValues, srcQuad, dstOffset, hr2]
    norm_num [List.filterMap_cons, List.filterMap_nil]
  have hcvsq : cellValues (squareRaster srcQuad) dstOffset 0 0 = [16, 144] := by
    simp only [cellValues, squareRaster, srcQuad, dstOffset, hr2]
    norm_num [List.filterMap_cons, List.filterMap_nil]
  refine ⟨?_, ?_, ?_, ?_⟩
  · norm_num [blockSizeOf, pyTrunc, srcQuad, dstOffset]
  · simp only [resample_chm_aggregation_std, hbv]
    norm_num [popVar, listMean]
  · simp only [check_0_3_std_cell, avgResampleCell, hcv, hcvsq]
    norm_num [listMean]
  · rw [Ne, Real.sqrt_inj (by norm_num) (by norm_num)]
    norm_num

/-- C1 (amended): the extended validation resampling
(`check_0_3_resample_chm_extended`) computes the std variant exactly as
`sqrt(max(0, E[X²] − E[X]²))` with both expectations obtained by
average-kernel resampling; the primary script
(`resample_chm_aggregation`) instead materializes each coarse cell's
source block and takes `np.std` of its valid pixels. Whenever the
coarse grid shares the base raster's origin and its pixel is an exact
whole multiple of the fine pixel, the two computations agree cell for
cell (so there the block std equals the moment formula); on offset
coarse grids they differ. -/
theorem check_0_3_matches_block_std_on_aligned_grids
    (g : GeoRaster) (d : GridSpec) (bs : ℕ)
    (hox : d.ox = g.ox) (hoy : d.oy = g.oy)
    (hpx : d.px = (bs : ℚ) * g.px) (hpy : d.py = (bs : ℚ) * g.py)
    (hgx : 0 < g.px) (hgy : 0 < g.py) (i j : ℕ) :
    check_0_3_std_cell g d i j = resample_chm_aggregation_std g bs i j := by
  have hcell := cellValues_eq_blockValues g d bs hox hoy hpx hpy hgx hgy i j
  unfold check_0_3_std_cell avgResampleCell
  rw [cellValues_squareRaster, hcell]
  by_cases hl : (blockValues g bs i j).length = 0
  · simp [resample_chm_aggregation_std, hl, List.length_eq_zero.mp hl]
  · have hne : blockValues g bs i j ≠ [] := by
      intro h
      exact hl (by simp [h])
    simp only [List.length_map, if_neg hl]
    show some (max 0 (listMean ((blockValues g bs i j).map fun x => x ^ 2)
        - listMean (blockValues g bs i j) ^ 2)) = resample_chm_aggregation_std g bs i j
    rw [← popVar_eq_moment _ hne]
    unfold resample_chm_aggregation_std
    rcases Nat.lt_or_ge 1 (blockValues g bs i j).length with h1 | h1
    · simp [h1]
    · have hlen1 : (blockValues g bs i j).length = 1 := by
        rcases Nat.eq_zero_or_pos (blockValues g bs i j).length with h0 | hp
        · exact absurd h0 hl
        · omega
      rcases List.length_eq_one.mp hlen1 with ⟨x, hx⟩
      rw [hx]
      norm_num [popVar, listMean]

/-- C1 (witness): on a concrete aligned pair of grids the amended
equivalence holds with every hypothesis discharged. -/
theorem check_0_3_matches_block_std_witness :
    check_0_3_std_cell srcQuad dstAligned 0 0
      = resample_chm_aggregation_std srcQuad 2 0 0 :=
  check_0_3_matches_block_std_on_aligned_grids srcQuad dstAligned 2
    (by norm_num [dstAligned, srcQuad]) (by norm_num [dstAligned, srcQuad])
    (by norm_num [dstAligned, srcQuad]) (by norm_num [dstAligned, srcQuad])
    (by norm_num [srcQuad]) (by norm_num [srcQuad]) 0 0

/-- C8: wherever a std aggregation cell is defined (not missing) its
value is nonnegative: the block variant stores the square root of a
mean of squares, and the extended check's `max(0, ·)` guard keeps the
moment variance nonnegative before its square root is taken. -/
theorem std_nonneg_wherever_defined (g : GeoRaster) (d : GridSpec) (bs i j : ℕ) :
    (∀ v, resample_chm_aggregation_std g bs i j = some v →
      0 ≤ v ∧ 0 ≤ Real.sqrt (v : ℝ)) ∧
    (∀ w, check_0_3_std_cell g d i j = some w →
      0 ≤ w ∧ 0 ≤ Real.sqrt (w : ℝ)) := by
  constructor
  · intro v hv
    refine ⟨?_, Real.sqrt_nonneg _⟩
    simp only [resample_chm_aggregation_std] at hv
    split at hv
    · obtain rfl : popVar (blockValues g bs i j) = v := Option.some_inj.mp hv
      exact popVar_nonneg _
    · split at hv
      · obtain rfl : (0 : ℚ) = v := Option.some_inj.mp hv
        exact le_refl 0
      · exact absurd hv (by simp)
  · intro w hw
    refine ⟨?_, Real.sqrt_nonneg _⟩
    unfold check_0_3_std_cell at hw
    cases hA : avgResampleCell g d i j with
    | none => rw [hA] at hw; exact absurd hw (by simp)
    | some m =>
        cases hB : avgResampleCell (squareRaster g) d i j with
        | none => rw [hA, hB] at hw; exact absurd hw (by simp)
        | some m2 =>
            rw [hA, hB] at hw
            obtain rfl : max 0 (m2 - m ^ 2) = w := Option.some_inj.mp hw
            exact le_max_left 0 _

/-- C8 (witness): both variants evaluated at a concrete defined cell. -/
theorem std_nonneg_wherever_defined_witness :
    (0 ≤ (20 : ℚ) ∧ 0 ≤ Real.sqrt ((20 : ℚ) : ℝ)) ∧
    (0 ≤ (20 : ℚ) ∧ 0 ≤ Real.sqrt ((20 : ℚ) : ℝ)) := by
  have hbv : blockValues srcQuad 2 0 0 = [0, 4, 8, 12] := by decide
  have hr2 : List.range 2 = [0, 1] := rfl
  have hcv : cellValues srcQuad dstAligned 0 0 = [0, 4, 8, 12] := by
    simp only [cellValues, srcQuad, dstAligned, hr2]
    norm_num [List.filterMap_cons, List.filterMap_nil]
  have hcvsq : cellValues (squareRaster srcQuad) dstAligned 0 0
      = [0, 16, 64, 144] := by
    simp only [cellValues, squareRaster, srcQuad, dstAligned, hr2]
    norm_num [List.filterMap_cons, List.filterMap_nil]
  constructor
  · refine (std_nonneg_wherever_defined srcQuad dstAligned 2 0 0).1 20 ?_
    simp only [resample_chm_aggregation_std, hbv]
    norm_num [popVar, listMean]
  · refine (std_nonneg_wherever_defined srcQuad dstAligned 2 0 0).2 20 ?_
    simp only [check_0_3_std_cell, avgResampleCell, hcv, hcvsq]
    norm_num [listMean]

/-- C10: in the block-based std aggregation, a destination cell whose
source block holds exactly one valid fine pixel is assigned std 0, and
a cell whose source block holds no valid fine pixel stays missing. -/
theorem std_single_and_empty_block_cells (g : GeoRaster) (bs i j : ℕ) :
    ((blockValues g bs i j).length = 1 →
      resample_chm_aggregation_std g bs i j = some 0) ∧
    ((blockValues g bs i j).length = 0 →
      resample_chm_aggregation_std g bs i j = none) := by
  unfold resample_chm_aggregation_std
  constructor
  · intro h
    simp [h]
  · intro h
    simp [h]

/-- A 2×4 raster with a single valid pixel in its left 2×2 block and an
all-missing right 2×2 block. -/
def srcSparse : GeoRaster :=
  { rows := 2, cols := 4
    val := fun r c => if r = 0 ∧ c = 0 then some 5 else none
    ox := 0, oy := 0, px := 1, py := 1 }

/-- C10 (witness): the single-valid block yields std 0 and the empty
block stays missing on a concrete raster. -/
theorem std_single_and_empty_block_cells_witness :
    ((blockValues srcSparse 2 0 0).length = 1 ∧
      resample_chm_aggregation_std srcSparse 2 0 0 = some 0) ∧
    ((blockValues srcSparse 2 0 1).length = 0 ∧
      resample_chm_aggregation_std srcSparse 2 0 1 = none) :=
  ⟨⟨by decide, (std_single_and_empty_block_cells srcSparse 2 0 0).1 (by decide)⟩,
   ⟨by decide, (std_single_and_empty_block_cells srcSparse 2 0 1).2 (by decide)⟩⟩

/-- C2: with `low_threshold = 0`, every valid pixel of the filtered CHM
lies in `[0, high_threshold]`; and the pixel with surface 5, terrain 7
(difference −2) is missing after filtering — neither −2 nor 0. -/
theorem quality_filter_range_and_negative_to_missing :
    (∀ (chm : ℕ → ℕ → Option ℚ) (maxT : ℚ) (i j : ℕ) (v : ℚ),
      apply_quality_filters 0 maxT chm i j = some v → 0 ≤ v ∧ v ≤ maxT) ∧
    (∀ i j : ℕ,
      compute_chm (fun _ _ => some 5) (fun _ _ => some 7) i j = some (-2) ∧
      apply_quality_filters 0 60
        (compute_chm (fun _ _ => some 5) (fun _ _ => some 7)) i j = none) := by
  constructor
  · intro chm maxT i j v hv
    cases hx : chm i j with
    | none => simp [apply_quality_filters, hx] at hv
    | some x =>
        simp only [apply_quality_filters, hx] at hv
        split_ifs at hv with h1 h2
        obtain rfl : x = v := Option.some_inj.mp hv
        exact ⟨le_of_not_lt h1, le_of_not_lt h2⟩
  · intro i j
    constructor
    · norm_num [compute_chm]
    · norm_num [apply_quality_filters, compute_chm]

/-- C2 (witness): a concrete in-range pixel is kept and bounded. -/
theorem quality_filter_range_witness : (0 : ℚ) ≤ 3 ∧ (3 : ℚ) ≤ 60 := by
  refine quality_filter_range_and_negative_to_missing.1
    (fun _ _ => some 3) 60 0 0 3 ?_
  norm_num [apply_quality_filters]

/-- C3: the derived height raster is the elementwise difference
surface − terrain, and a pixel missing in either input is missing in
the output (no zero or other fallback). -/
theorem compute_chm_difference_and_missing_propagation
    (dom dgm : ℕ → ℕ → Option ℚ) (i j : ℕ) :
    (∀ a b : ℚ, dom i j = some a → dgm i j = some b →
      compute_chm dom dgm i j = some (a - b)) ∧
    (dom i j = none ∨ dgm i j = none → compute_chm dom dgm i j = none) := by
  constructor
  · intro a b ha hb
    unfold compute_chm
    rw [ha, hb]
  · intro h
    unfold compute_chm
    rcases h with h | h
    · rw [h]
    · rw [h]
      cases dom i j <;> rfl

/-- C3 (witness): concrete difference and concrete missing input. -/
theorem compute_chm_difference_witness :
    compute_chm (fun _ _ => some 10) (fun _ _ => some 2) 0 0 = some 8 ∧
    compute_chm (fun _ _ => none) (fun _ _ => some 2) 0 0 = none := by
  constructor
  · have h := (compute_chm_difference_and_missing_propagation
      (fun _ _ => some 10) (fun _ _ => some 2) 0 0).1 10 2 rfl rfl
    norm_num at h
    exact h
  · exact (compute_chm_difference_and_missing_propagation
      (fun _ _ => none) (fun _ _ => some 2) 0 0).2 (Or.inl rfl)

/-- Berlin-like boundary bounds in the tile CRS (meters). -/
def berlinBounds : Bounds :=
  { minx := 370000, miny := 5800000, maxx := 416000, maxy := 5838000 }

/-- C4: the spec (and the code's own comment at the `except` handler)
says unparseable tile names are kept, fail open; but a title without an
underscore never reaches the `int` parse — the `len(parts) >= 2` guard
falls through without appending — so the tile is silently dropped. -/
theorem unparseable_tile_dropped :
    (splitOnChar '_' (cleanTitle ("Uebersicht".toList))).length < 2 ∧
    filter_tiles_by_coordinates berlinBounds
      [{ title := "Uebersicht".toList, url := "u".toList }] = [] := by
  constructor
  · decide
  · decide

/-- C5: any tile whose filename-encoded kilometer cell `(x, y)` gives it
a footprint `[1000x, 1000x+s] × [1000y, 1000y+s]` (side `s` at most the
2 km margin) that intersects the boundary bounds is retained by the
coordinate pre-filter: the truncation to whole-km indices plus the
±2 km buffer can never exclude an intersecting tile. -/
theorem intersecting_tile_retained
    (b : Bounds) (tiles : List Tile) (t : Tile) (x y : ℤ) (s : ℚ)
    (hlen : 2 ≤ (splitOnChar '_' (cleanTitle t.title)).length)
    (hx : pyInt ((splitOnChar '_' (cleanTitle t.title)).getD 0 []) = some x)
    (hy : pyInt ((splitOnChar '_' (cleanTitle t.title)).getD 1 []) = some y)
    (hs : s ≤ 2000)
    (hx1 : 1000 * (x : ℚ) ≤ b.maxx) (hx2 : b.minx ≤ 1000 * (x : ℚ) + s)
    (hy1 : 1000 * (y : ℚ) ≤ b.maxy) (hy2 : b.miny ≤ 1000 * (y : ℚ) + s)
    (hmem : t ∈ tiles) :
    t ∈ filter_tiles_by_coordinates b tiles := by
  unfold filter_tiles_by_coordinates
  refine List.mem_filter.mpr ⟨hmem, ?_⟩
  show (if 2 ≤ (splitOnChar '_' (cleanTitle t.title)).length then _ else false) = true
  rw [if_pos hlen, hx, hy]
  refine decide_eq_true ⟨?_, ?_, ?_, ?_⟩
  · show pyTrunc (b.minx / 1000) - 2 ≤ x
    have hq : b.minx / 1000 ≤ (x : ℚ) + 2 := by
      rw [div_le_iff₀ (by norm_num : (0 : ℚ) < 1000)]
      linarith
    have hc : Int.ceil (b.minx / 1000) ≤ x + 2 := Int.ceil_le.mpr (by push_cast; exact hq)
    have ht := pyTrunc_le_ceil (b.minx / 1000)
    omega
  · show x ≤ pyTrunc (b.maxx / 1000) + 1 + 2
    have hq : (x : ℚ) ≤ b.maxx / 1000 := by
      rw [le_div_iff₀ (by norm_num : (0 : ℚ) < 1000)]
      linarith
    have hf : x ≤ Int.floor (b.maxx / 1000) := Int.le_floor.mpr hq
    have ht := floor_le_pyTrunc (b.maxx / 1000)
    omega
  · show pyTrunc (b.miny / 1000) - 2 ≤ y
    have hq : b.miny / 1000 ≤ (y : ℚ) + 2 := by
      rw [div_le_iff₀ (by norm_num : (0 : ℚ) < 1000)]
      linarith
    have hc : Int.ceil (b.miny / 1000) ≤ y + 2 := Int.ceil_le.mpr (by push_cast; exact hq)
    have ht := pyTrunc_le_ceil (b.miny / 1000)
    omega
  · show y ≤ pyTrunc (b.maxy / 1000) + 1 + 2
    have hq : (y : ℚ) ≤ b.maxy / 1000 := by
      rw [le_div_iff₀ (by norm_num : (0 : ℚ) < 1000)]
      linarith
    have hf : y ≤ Int.floor (b.maxy / 1000) := Int.le_floor.mpr hq
    have ht := floor_le_pyTrunc (b.maxy / 1000)
    omega

/-- A concrete Berlin tile touching the boundary window edge. -/
def tile368 : Tile :=
  { title := "DOM1 368_5808".toList, url := "https://example/t.zip".toList }

/-- C5 (witness): a concrete tile whose 2 km footprint touches the
boundary bounds is retained. -/
theorem intersecting_tile_retained_witness :
    tile368 ∈ filter_tiles_by_coordinates berlinBounds [tile368] :=
  intersecting_tile_retained berlinBounds [tile368] tile368 368 5808 2000
    (by decide) (by decide) (by decide) (by norm_num)
    (by norm_num [berlinBounds]) (by norm_num [berlinBounds])
    (by norm_num [berlinBounds]) (by norm_num [berlinBounds])
    (by simp)

theorem writeFirst_of_none (acc tile : ℕ → ℕ → Option ℚ) (i j : ℕ)
    (h : acc i j = none) : writeFirst acc tile i j = tile i j := by
  unfold writeFirst
  rw [h]

theorem mergeFirst_keep_none (l : List (ℕ → ℕ → Option ℚ))
    (acc : ℕ → ℕ → Option ℚ) (i j : ℕ) (hacc : acc i j = none)
    (hall : ∀ u ∈ l, u i j = none) :
    (l.foldl writeFirst acc) i j = none := by
  induction l generalizing acc with
  | nil => simpa using hacc
  | cons u rest ih =>
      rw [List.foldl_cons]
      apply ih
      · show writeFirst acc u i j = none
        unfold writeFirst
        rw [hacc]
        exact hall u (by simp)
      · intro u' hu'
        exact hall u' (by simp [hu'])

theorem mergeFirst_keep_some (l : List (ℕ → ℕ → Option ℚ))
    (acc : ℕ → ℕ → Option ℚ) (i j : ℕ) (v : ℚ) (hacc : acc i j = some v) :
    (l.foldl writeFirst acc) i j = some v := by
  induction l generalizing acc with
  | nil => simpa using hacc
  | cons u rest ih =>
      rw [List.foldl_cons]
      apply ih
      show writeFirst acc u i j = some v
      unfold writeFirst
      rw [hacc]

/-- C6: under the first-wins merge, a pixel covered by an earlier tile
keeps that tile's value whatever the later tiles hold: once written
with a valid value it is never overwritten, so overlapping tiles with
distinct values resolve to the first-processed one. -/
theorem mergeFirst_first_wins (pre post : List (ℕ → ℕ → Option ℚ))
    (t : ℕ → ℕ → Option ℚ) (i j : ℕ) (v : ℚ)
    (hpre : ∀ u ∈ pre, u i j = none) (ht : t i j = some v) :
    mergeFirst (pre ++ t :: post) i j = some v := by
  unfold mergeFirst
  rw [List.foldl_append, List.foldl_cons]
  apply mergeFirst_keep_some
  have hnone : (pre.foldl writeFirst fun _ _ => none) i j = none :=
    mergeFirst_keep_none pre _ i j rfl hpre
  rw [writeFirst_of_none _ _ _ _ hnone]
  exact ht

/-- C6 (witness): two fully overlapping tiles with distinct values 3
and 7 merge to the first tile's 3. -/
theorem mergeFirst_first_wins_witness :
    mergeFirst [fun _ _ => some 3, fun _ _ => some 7] 0 0 = some 3 ∧
    (3 : ℚ) ≠ 7 := by
  refine ⟨?_, by norm_num⟩
  exact mergeFirst_first_wins [] [fun _ _ => some 7] (fun _ _ => some 3) 0 0 3
    (by simp) rfl

/-- C7: in the mosaic step every unopenable tile is skipped without
aborting, and the step raises its fatal error exactly when no openable
tile remains; on success it proceeds with precisely the openable tiles
in their original order. -/
theorem mosaic_skip_and_fatal_iff {R : Type} (paths : List (Option R)) :
    ((∃ e, mosaicOpenPhase paths = Except.error e) ↔ paths.filterMap id = []) ∧
    (∀ l, mosaicOpenPhase paths = Except.ok l → l = paths.filterMap id) := by
  simp only [mosaicOpenPhase]
  by_cases h0 : paths.length = 0
  · rw [if_pos h0]
    have hp : paths = [] := List.length_eq_zero.mp h0
    subst hp
    constructor
    · exact ⟨fun _ => rfl, fun _ => ⟨_, rfl⟩⟩
    · intro l hl
      exact absurd hl (by simp)
  · rw [if_neg h0]
    by_cases h1 : (paths.filterMap id).length = 0
    · rw [if_pos h1]
      constructor
      · exact ⟨fun _ => List.length_eq_zero.mp h1, fun _ => ⟨_, rfl⟩⟩
      · intro l hl
        exact absurd hl (by simp)
    · rw [if_neg h1]
      constructor
      · constructor
        · intro ⟨e, he⟩
          exact absurd he (by simp)
        · intro h
          exact absurd (congrArg List.length h) (by simpa using h1)
      · intro l hl
        injection hl with h2
        exact h2.symm

/-- C7 (witness): with one corrupt tile among two good ones the step
succeeds with the two good tiles; with no openable tile it errors. -/
theorem mosaic_skip_and_fatal_iff_witness :
    (([1, 2] : List ℕ) = List.filterMap id [some 1, none, some 2]) ∧
    List.filterMap id ([none, none] : List (Option ℕ)) = [] := by
  constructor
  · exact (mosaic_skip_and_fatal_iff [some 1, none, some 2]).2 [1, 2] rfl
  · exact (mosaic_skip_and_fatal_iff [none, none]).1.mp ⟨_, rfl⟩

/-- A raster as loaded by `check_0_4_correlation_offset_detection`
(pixel grid only; both rasters are on the same 10m grid). -/
structure Grid where
  rows : ℕ
  cols : ℕ
  val : ℕ → ℕ → Option ℚ

/-- `scipy.ndimage.shift(arr, shift=(dy, dx), mode="constant",
cval=nan)` for an integer pixel shift on an R×C array:
`out[i][j] = arr[i - dy][j - dx]`, missing outside the border. -/
def shiftedVal (g : Grid) (R C : ℕ) (dx dy : ℤ) (i j : ℕ) : Option ℚ :=
  if 0 ≤ (i : ℤ) - dy ∧ (i : ℤ) - dy < (R : ℤ) ∧
      0 ≤ (j : ℤ) - dx ∧ (j : ℤ) - dx < (C : ℤ) then
    g.val ((i : ℤ) - dy).toNat ((j : ℤ) - dx).toNat
  else none

/-- The synthetic scenario raster: `raster_a` shifted by exactly
`(dx, dy)` pixels with missing border fill. -/
def shiftGrid (g : Grid) (dx dy : ℤ) : Grid :=
  { rows := g.rows, cols := g.cols
    val := fun i j => shiftedVal g g.rows g.cols dx dy i j }

/-- The valid mask of the scan: both pixels present, shifted CHM `> 0`
and NDVI `> -1`. -/
def maskPair (xo yo : Option ℚ) : Option (ℚ × ℚ) :=
  match xo, yo with
  | some x, some y => if x > 0 ∧ y > -1 then some (x, y) else none
  | _, _ => none

/-- The masked sample of one candidate offset: both rasters cropped to
their common minimal shape, `raster_a` shifted by `(dx, dy)`, pairs
collected in row-major order. -/
def offsetSample (a b : Grid) (dx dy : ℤ) : List (ℚ × ℚ) :=
  (List.range (min a.rows b.rows)).flatMap (fun (i : ℕ) =>
    (List.range (min a.cols b.cols)).filterMap (fun (j : ℕ) =>
      maskPair (shiftedVal a (min a.rows b.rows) (min a.cols b.cols) dx dy i j)
        (b.val i j)))

/-- The sufficient statistics of `scipy.stats.pearsonr` on a sample:
size and the centered second moments; the recorded correlation is
`sxy / (sqrt sxx * sqrt syy)`, stated with `Real.sqrt` in theorems. -/
structure OffsetStats where
  n : ℕ
  sxy : ℚ
  sxx : ℚ
  syy : ℚ

def sampleMx (l : List (ℚ × ℚ)) : ℚ := listMean (l.map Prod.fst)

def sampleMy (l : List (ℚ × ℚ)) : ℚ := listMean (l.map Prod.snd)

def sampleStats (l : List (ℚ × ℚ)) : OffsetStats :=
  { n := l.length
    sxy := (l.map (fun p => (p.1 - sampleMx l) * (p.2 - sampleMy l))).sum
    sxx := (l.map (fun p => (p.1 - sampleMx l) ^ 2)).sum
    syy := (l.map (fun p => (p.2 - sampleMy l) ^ 2)).sum }

def statsAt (a b : Grid) (dx dy : ℤ) : OffsetStats :=
  sampleStats (offsetSample a b dx dy)

structure OffsetEntry where
  dx : ℤ
  dy : ℤ
  stats : OffsetStats

/-- The offset scan of `check_0_4_correlation_offset_detection`:
candidate offsets `(dx, dy)` for `dx in range(-2, 3)` then
`dy in range(-2, 3)` (pixel units; the report scales to meters by 10);
each entry records the Pearson statistics over the masked overlap. An
entry with fewer than 1000 valid pixels (or zero variance) is recorded
as NaN and ignored by the `idxmax` maximum search. -/
def scan_offsets (a b : Grid) : List OffsetEntry :=
  (List.range 5).flatMap (fun dxi =>
    (List.range 5).map (fun dyi =>
      { dx := (dxi : ℤ) - 2, dy := (dyi : ℤ) - 2
        stats := statsAt a b ((dxi : ℤ) - 2) ((dyi : ℤ) - 2) }))

theorem list_sum_sq_nonneg {α : Type} (l : List α) (f : α → ℚ) :
    0 ≤ (l.map (fun p => f p ^ 2)).sum := by
  apply List.sum_nonneg
  intro x hx
  rcases List.mem_map.1 hx with ⟨y, _, rfl⟩
  exact sq_nonneg _

theorem list_sum_sq_pos {α : Type} (l : List α) (f : α → ℚ)
    (p : α) (hp : p ∈ l) (hpos : f p ≠ 0) :
    0 < (l.map (fun q => f q ^ 2)).sum := by
  induction l with
  | nil => cases hp
  | cons q rest ih =>
      simp only [List.map_cons, List.sum_cons]
      rcases List.mem_cons.mp hp with rfl | hp2
      · have h1 : 0 < f p ^ 2 :=
          lt_of_le_of_ne (sq_nonneg _) (Ne.symm (pow_ne_zero 2 hpos))
        have h2 := list_sum_sq_nonneg rest f
        linarith
      · have h1 := ih hp2
        have h2 : 0 ≤ f q ^ 2 := sq_nonneg _
        linarith

theorem list_sum_sq_eq_zero {α : Type} (l : List α) (f : α → ℚ)
    (h : (l.map (fun p => f p ^ 2)).sum = 0) :
    ∀ p ∈ l, f p = 0 := by
  induction l with
  | nil => intro p hp; cases hp
  | cons q rest ih =>
      simp only [List.map_cons, List.sum_cons] at h
      have h1 : 0 ≤ f q ^ 2 := sq_nonneg _
      have h2 := list_sum_sq_nonneg rest f
      have hq : f q ^ 2 = 0 := by linarith
      have hrest : (rest.map (fun p => f p ^ 2)).sum = 0 := by linarith
      intro p hp
      rcases List.mem_cons.mp hp with rfl | hp2
      · exact pow_eq_zero_iff (by norm_num) |>.mp hq
      · exact ih hrest p hp2

theorem sum_residual_expand {α : Type} (l : List α) (u v : α → ℚ) (t : ℚ) :
    (l.map (fun p => (v p - t * u p) ^ 2)).sum
      = (l.map (fun p => v p ^ 2)).sum
        - 2 * t * (l.map (fun p => u p * v p)).sum
        + t ^ 2 * (l.map (fun p => u p ^ 2)).sum := by
  induction l with
  | nil => simp
  | cons q rest ih =>
      simp only [List.map_cons, List.sum_cons, ih]
      ring

/-- Cauchy–Schwarz for the centered sums of a list of pairs, proved by
the residual-discriminant argument (no square roots needed). -/
theorem list_pairs_cs (l : List (ℚ × ℚ)) (mx my : ℚ) :
    ((l.map (fun p => (p.1 - mx) * (p.2 - my))).sum) ^ 2
      ≤ ((l.map (fun p => (p.1 - mx) ^ 2)).sum)
        * ((l.map (fun p => (p.2 - my) ^ 2)).sum) := by
  by_cases hx : (l.map (fun p => (p.1 - mx) ^ 2)).sum = 0
  · have hall := list_sum_sq_eq_zero l (fun p => p.1 - mx) hx
    have h0 : (l.map (fun p => (p.1 - mx) * (p.2 - my))).sum = 0 := by
      apply List.sum_eq_zero
      intro x hx'
      rcases List.mem_map.1 hx' with ⟨p, hp, rfl⟩
      have h1 : p.1 - mx = 0 := hall p hp
      rw [h1, zero_mul]
    rw [h0, hx, zero_mul]
    norm_num
  · have hpos : 0 < (l.map (fun p => (p.1 - mx) ^ 2)).sum :=
      lt_of_le_of_ne (list_sum_sq_nonneg l _) (Ne.symm hx)
    set A := (l.map (fun p => (p.1 - mx) ^ 2)).sum with hA
    set B := (l.map (fun p => (p.2 - my) ^ 2)).sum with hB
    set C := (l.map (fun p => (p.1 - mx) * (p.2 - my))).sum with hC
    have hres : 0 ≤ B - 2 * (C / A) * C + (C / A) ^ 2 * A := by
      have h := sum_residual_expand l (fun p => p.1 - mx) (fun p => p.2 - my) (C / A)
      rw [← hA, ← hB, ← hC] at h
      rw [← h]
      exact list_sum_sq_nonneg l _
    have hAne : A ≠ 0 := ne_of_gt hpos
    have heq : B - 2 * (C / A) * C + (C / A) ^ 2 * A = B - C ^ 2 / A := by
      field_simp
      ring
    rw [heq] at hres
    have h3 : C ^ 2 / A ≤ B := by linarith
    have h4 := (div_le_iff₀ hpos).mp h3
    have h5 : B * A = A * B := mul_comm B A
    linarith

/-- Equality case: when the Cauchy–Schwarz bound is attained with
positive x-variance, every pair lies on the regression line. -/
theorem list_pairs_collinear (l : List (ℚ × ℚ)) (mx my : ℚ)
    (hpos : 0 < (l.map (fun p => (p.1 - mx) ^ 2)).sum)
    (heq : ((l.map (fun p => (p.1 - mx) * (p.2 - my))).sum) ^ 2
      = ((l.map (fun p => (p.1 - mx) ^ 2)).sum)
        * ((l.map (fun p => (p.2 - my) ^ 2)).sum)) :
    ∀ p ∈ l, p.2 - my
      = (((l.map (fun p => (p.1 - mx) * (p.2 - my))).sum)
          / ((l.map (fun p => (p.1 - mx) ^ 2)).sum)) * (p.1 - mx) := by
  set A := (l.map (fun p => (p.1 - mx) ^ 2)).sum with hA
  set B := (l.map (fun p => (p.2 - my) ^ 2)).sum with hB
  set C := (l.map (fun p => (p.1 - mx) * (p.2 - my))).sum with hC
  have hAne : A ≠ 0 := ne_of_gt hpos
  have hres0 : (l.map (fun p => ((p.2 - my) - (C / A) * (p.1 - mx)) ^ 2)).sum = 0 := by
    have h := sum_residual_expand l (fun p => p.1 - mx) (fun p => p.2 - my) (C / A)
    rw [← hA, ← hB, ← hC] at h
    rw [h]
    have ht : B - 2 * (C / A) * C + (C / A) ^ 2 * A = B - C ^ 2 / A := by
      field_simp
      ring
    rw [ht, heq, mul_div_cancel_left₀ _ hAne, sub_self]
  have hall := list_sum_sq_eq_zero l
    (fun p => (p.2 - my) - (C / A) * (p.1 - mx)) hres0
  intro p hp
  have h := hall p hp
  linarith [h]

theorem sampleStats_sxx_nonneg (l : List (ℚ × ℚ)) : 0 ≤ (sampleStats l).sxx :=
  list_sum_sq_nonneg l (fun p => p.1 - sampleMx l)

theorem sampleStats_syy_nonneg (l : List (ℚ × ℚ)) : 0 ≤ (sampleStats l).syy :=
  list_sum_sq_nonneg l (fun p => p.2 - sampleMy l)

theorem sampleStats_cs (l : List (ℚ × ℚ)) :
    (sampleStats l).sxy ^ 2 ≤ (sampleStats l).sxx * (sampleStats l).syy :=
  list_pairs_cs l (sampleMx l) (sampleMy l)

theorem sampleStats_sxy_zero_of_sxx_zero (l : List (ℚ × ℚ))
    (h : (sampleStats l).sxx = 0) : (sampleStats l).sxy = 0 := by
  have hall := list_sum_sq_eq_zero l (fun p => p.1 - sampleMx l) h
  apply List.sum_eq_zero
  intro x hx
  rcases List.mem_map.1 hx with ⟨pp, hpp, rfl⟩
  have h1 : pp.1 - sampleMx l = 0 := hall pp hpp
  rw [h1, zero_mul]

theorem sampleStats_sxy_zero_of_syy_zero (l : List (ℚ × ℚ))
    (h : (sampleStats l).syy = 0) : (sampleStats l).sxy = 0 := by
  have hall := list_sum_sq_eq_zero l (fun p => p.2 - sampleMy l) h
  apply List.sum_eq_zero
  intro x hx
  rcases List.mem_map.1 hx with ⟨pp, hpp, rfl⟩
  have h1 : pp.2 - sampleMy l = 0 := hall pp hpp
  rw [h1, mul_zero]

theorem sampleStats_sxx_pos (l : List (ℚ × ℚ)) (p q : ℚ × ℚ)
    (hp : p ∈ l) (hq : q ∈ l) (hne : p.1 ≠ q.1) : 0 < (sampleStats l).sxx := by
  by_cases hpm : p.1 - sampleMx l = 0
  · have hqm : q.1 - sampleMx l ≠ 0 := by
      intro h
      exact hne (by linarith)
    exact list_sum_sq_pos l (fun r => r.1 - sampleMx l) q hq hqm
  · exact list_sum_sq_pos l (fun r => r.1 - sampleMx l) p hp hpm

theorem sampleStats_syy_pos (l : List (ℚ × ℚ)) (p q : ℚ × ℚ)
    (hp : p ∈ l) (hq : q ∈ l) (hne : p.2 ≠ q.2) : 0 < (sampleStats l).syy := by
  by_cases hpm : p.2 - sampleMy l = 0
  · have hqm : q.2 - sampleMy l ≠ 0 := by
      intro h
      exact hne (by linarith)
    exact list_sum_sq_pos l (fun r => r.2 - sampleMy l) q hq hqm
  · exact list_sum_sq_pos l (fun r => r.2 - sampleMy l) p hp hpm

/-- The recorded correlation never exceeds 1. -/
theorem pearson_le_one (l : List (ℚ × ℚ)) :
    ((sampleStats l).sxy : ℝ)
      / (Real.sqrt ((sampleStats l).sxx : ℝ)
          * Real.sqrt ((sampleStats l).syy : ℝ)) ≤ 1 := by
  by_cases hsxy : (sampleStats l).sxy ≤ 0
  · have h1 : ((sampleStats l).sxy : ℝ) ≤ 0 := by exact_mod_cast hsxy
    have h2 : 0 ≤ Real.sqrt ((sampleStats l).sxx : ℝ)
        * Real.sqrt ((sampleStats l).syy : ℝ) :=
      mul_nonneg (Real.sqrt_nonneg _) (Real.sqrt_nonneg _)
    calc ((sampleStats l).sxy : ℝ)
        / (Real.sqrt ((sampleStats l).sxx : ℝ)
            * Real.sqrt ((sampleStats l).syy : ℝ))
        ≤ 0 := div_nonpos_iff.mpr (Or.inr ⟨h1, h2⟩)
      _ ≤ 1 := by norm_num
  · push_neg at hsxy
    have hsxx : 0 < (sampleStats l).sxx := by
      rcases lt_or_eq_of_le (sampleStats_sxx_nonneg l) with h | h
      · exact h
      · exact absurd (sampleStats_sxy_zero_of_sxx_zero l h.symm) (ne_of_gt hsxy)
    have hsyy : 0 < (sampleStats l).syy := by
      rcases lt_or_eq_of_le (sampleStats_syy_nonneg l) with h | h
      · exact h
      · exact absurd (sampleStats_sxy_zero_of_syy_zero l h.symm) (ne_of_gt hsxy)
    have hsq : (((sampleStats l).sxy : ℝ)) ^ 2
        ≤ ((sampleStats l).sxx : ℝ) * ((sampleStats l).syy : ℝ) := by
      exact_mod_cast sampleStats_cs l
    have hkey : ((sampleStats l).sxy : ℝ)
        ≤ Real.sqrt ((sampleStats l).sxx : ℝ)
          * Real.sqrt ((sampleStats l).syy : ℝ) := by
      calc ((sampleStats l).sxy : ℝ)
          = Real.sqrt ((((sampleStats l).sxy : ℝ)) ^ 2) :=
            (Real.sqrt_sq (by exact_mod_cast hsxy.le)).symm
        _ ≤ Real.sqrt (((sampleStats l).sxx : ℝ) * ((sampleStats l).syy : ℝ)) :=
            Real.sqrt_le_sqrt hsq
        _ = Real.sqrt ((sampleStats l).sxx : ℝ)
            * Real.sqrt ((sampleStats l).syy : ℝ) :=
            Real.sqrt_mul (by exact_mod_cast hsxx.le) _
    have hden : 0 < Real.sqrt ((sampleStats l).sxx : ℝ)
        * Real.sqrt ((sampleStats l).syy : ℝ) :=
      mul_pos (Real.sqrt_pos.mpr (by exact_mod_cast hsxx))
        (Real.sqrt_pos.mpr (by exact_mod_cast hsyy))
    exact (div_le_one hden).mpr hkey

/-- Strictly below 1 whenever both variances are positive and the
Cauchy–Schwarz bound is not attained. -/
theorem pearson_lt_one (l : List (ℚ × ℚ))
    (hsxx : 0 < (sampleStats l).sxx) (hsyy : 0 < (sampleStats l).syy)
    (hne : (sampleStats l).sxy ^ 2 ≠ (sampleStats l).sxx * (sampleStats l).syy) :
    ((sampleStats l).sxy : ℝ)
      / (Real.sqrt ((sampleStats l).sxx : ℝ)
          * Real.sqrt ((sampleStats l).syy : ℝ)) < 1 := by
  have hden : 0 < Real.sqrt ((sampleStats l).sxx : ℝ)
      * Real.sqrt ((sampleStats l).syy : ℝ) :=
    mul_pos (Real.sqrt_pos.mpr (by exact_mod_cast hsxx))
      (Real.sqrt_pos.mpr (by exact_mod_cast hsyy))
  by_cases hsxy : (sampleStats l).sxy ≤ 0
  · have h1 : ((sampleStats l).sxy : ℝ) ≤ 0 := by exact_mod_cast hsxy
    calc ((sampleStats l).sxy : ℝ)
        / (Real.sqrt ((sampleStats l).sxx : ℝ)
            * Real.sqrt ((sampleStats l).syy : ℝ))
        ≤ 0 := div_nonpos_iff.mpr (Or.inr ⟨h1, hden.le⟩)
      _ < 1 := by norm_num
  · push_neg at hsxy
    have hstrict : (sampleStats l).sxy ^ 2
        < (sampleStats l).sxx * (sampleStats l).syy :=
      lt_of_le_of_ne (sampleStats_cs l) hne
    have hkey : ((sampleStats l).sxy : ℝ)
        < Real.sqrt ((sampleStats l).sxx : ℝ)
          * Real.sqrt ((sampleStats l).syy : ℝ) := by
      calc ((sampleStats l).sxy : ℝ)
          = Real.sqrt ((((sampleStats l).sxy : ℝ)) ^ 2) :=
            (Real.sqrt_sq (by exact_mod_cast hsxy.le)).symm
        _ < Real.sqrt (((sampleStats l).sxx : ℝ) * ((sampleStats l).syy : ℝ)) :=
            Real.sqrt_lt_sqrt (sq_nonneg _) (by exact_mod_cast hstrict)
        _ = Real.sqrt ((sampleStats l).sxx : ℝ)
            * Real.sqrt ((sampleStats l).syy : ℝ) :=
            Real.sqrt_mul (by exact_mod_cast hsxx.le) _
    exact (div_lt_one hden).mpr hkey

/-- Exactly 1 when every sample pair is diagonal with positive
variance (the sample correlates a quantity with itself). -/
theorem pearson_eq_one_of_diag (l : List (ℚ × ℚ))
    (hdiag : ∀ p ∈ l, p.1 = p.2) (hpos : 0 < (sampleStats l).sxx) :
    ((sampleStats l).sxy : ℝ)
      / (Real.sqrt ((sampleStats l).sxx : ℝ)
          * Real.sqrt ((sampleStats l).syy : ℝ)) = 1 := by
  have hmap : l.map Prod.snd = l.map Prod.fst :=
    List.map_congr_left (fun pp hpp => (hdiag pp hpp).symm)
  have hm : sampleMy l = sampleMx l := by
    unfold sampleMy sampleMx
    rw [hmap]
  have hxy : (sampleStats l).sxy = (sampleStats l).sxx := by
    show (l.map (fun pp => (pp.1 - sampleMx l) * (pp.2 - sampleMy l))).sum
        = (l.map (fun pp => (pp.1 - sampleMx l) ^ 2)).sum
    rw [List.map_congr_left (fun pp hpp => ?_)]
    rw [hm, ← hdiag pp hpp]
    ring
  have hyy : (sampleStats l).syy = (sampleStats l).sxx := by
    show (l.map (fun pp => (pp.2 - sampleMy l) ^ 2)).sum
        = (l.map (fun pp => (pp.1 - sampleMx l) ^ 2)).sum
    rw [List.map_congr_left (fun pp hpp => ?_)]
    rw [hm, ← hdiag pp hpp]
  rw [hxy, hyy, Real.mul_self_sqrt (by exact_mod_cast hpos.le)]
  exact div_self (by exact_mod_cast ne_of_gt hpos)

/-- Pairs sampled when the candidate offset matches the constructed
shift are diagonal: the shifted raster coincides with `raster_b`. -/
theorem offsetSample_shift_diag (a : Grid) (dx dy : ℤ) :
    ∀ p ∈ offsetSample a (shiftGrid a dx dy) dx dy, p.1 = p.2 := by
  intro p hp
  unfold offsetSample at hp
  rcases List.mem_flatMap.1 hp with ⟨i, _, hin⟩
  rcases List.mem_filterMap.1 hin with ⟨j, _, hmk⟩
  have harg : (shiftGrid a dx dy).val i j
      = shiftedVal a (min a.rows (shiftGrid a dx dy).rows)
          (min a.cols (shiftGrid a dx dy).cols) dx dy i j := by
    show shiftedVal a a.rows a.cols dx dy i j = _
    rw [show (shiftGrid a dx dy).rows = a.rows from rfl,
      show (shiftGrid a dx dy).cols = a.cols from rfl,
      Nat.min_self, Nat.min_self]
  rw [harg] at hmk
  rcases hx : shiftedVal a (min a.rows (shiftGrid a dx dy).rows)
      (min a.cols (shiftGrid a dx dy).cols) dx dy i j with _ | x
  · rw [hx] at hmk
    simp [maskPair] at hmk
  · rw [hx] at hmk
    simp only [maskPair] at hmk
    split_ifs at hmk
    obtain rfl : (x, x) = p := Option.some_inj.mp hmk
    rfl

/-- C9: when `raster_b` is `raster_a` shifted by exactly (1, 0) pixels
and the content is correlated but not self-similar (the (1, 0) overlap
carries two distinct values, the (0, 0) overlap carries three
non-collinear pairs, both overlaps pass the 1000-pixel threshold), the
offset scan records correlation exactly 1 at offset (1, 0), at most 1
at every scanned offset, and strictly below 1 at (0, 0): its maximum
is reported at (1, 0), not at (0, 0). Both offsets are in the scanned
range. -/
theorem scan_offsets_peak_at_shift (a : Grid)
    (hn10 : 1000 ≤ (statsAt a (shiftGrid a 1 0) 1 0).n)
    (hn00 : 1000 ≤ (statsAt a (shiftGrid a 1 0) 0 0).n)
    (p q : ℚ × ℚ)
    (hp : p ∈ offsetSample a (shiftGrid a 1 0) 1 0)
    (hq : q ∈ offsetSample a (shiftGrid a 1 0) 1 0)
    (hpq : p.1 ≠ q.1)
    (p1 p2 p3 : ℚ × ℚ)
    (hp1 : p1 ∈ offsetSample a (shiftGrid a 1 0) 0 0)
    (hp2 : p2 ∈ offsetSample a (shiftGrid a 1 0) 0 0)
    (hp3 : p3 ∈ offsetSample a (shiftGrid a 1 0) 0 0)
    (hncol : (p2.1 - p1.1) * (p3.2 - p1.2) ≠ (p3.1 - p1.1) * (p2.2 - p1.2)) :
    1000 ≤ (statsAt a (shiftGrid a 1 0) 1 0).n ∧
    1000 ≤ (statsAt a (shiftGrid a 1 0) 0 0).n ∧
    ((statsAt a (shiftGrid a 1 0) 1 0).sxy : ℝ)
        / (Real.sqrt ((statsAt a (shiftGrid a 1 0) 1 0).sxx : ℝ)
            * Real.sqrt ((statsAt a (shiftGrid a 1 0) 1 0).syy : ℝ)) = 1 ∧
    (∀ e ∈ scan_offsets a (shiftGrid a 1 0),
      (e.stats.sxy : ℝ)
        / (Real.sqrt (e.stats.sxx : ℝ) * Real.sqrt (e.stats.syy : ℝ)) ≤ 1) ∧
    ((statsAt a (shiftGrid a 1 0) 0 0).sxy : ℝ)
        / (Real.sqrt ((statsAt a (shiftGrid a 1 0) 0 0).sxx : ℝ)
            * Real.sqrt ((statsAt a (shiftGrid a 1 0) 0 0).syy : ℝ)) < 1 ∧
    (∃ e ∈ scan_offsets a (shiftGrid a 1 0), e.dx = 1 ∧ e.dy = 0) ∧
    (∃ e ∈ scan_offsets a (shiftGrid a 1 0), e.dx = 0 ∧ e.dy = 0) := by
  refine ⟨hn10, hn00, ?_, ?_, ?_, ?_, ?_⟩
  · have hdiag := offsetSample_shift_diag a 1 0
    have hpos := sampleStats_sxx_pos (offsetSample a (shiftGrid a 1 0) 1 0)
      p q hp hq hpq
    exact pearson_eq_one_of_diag _ hdiag hpos
  · intro e he
    rcases List.mem_flatMap.1 he with ⟨dxi, _, hin⟩
    rcases List.mem_map.1 hin with ⟨dyi, _, rfl⟩
    exact pearson_le_one _
  · have hsxx : 0 < (sampleStats (offsetSample a (shiftGrid a 1 0) 0 0)).sxx := by
      by_cases h12 : p2.1 = p1.1
      · have h13 : p3.1 ≠ p1.1 := by
          intro h13
          apply hncol
          rw [h12, h13]
          ring
        exact sampleStats_sxx_pos _ p3 p1 hp3 hp1 h13
      · exact sampleStats_sxx_pos _ p2 p1 hp2 hp1 h12
    have hsyy : 0 < (sampleStats (offsetSample a (shiftGrid a 1 0) 0 0)).syy := by
      by_cases h12 : p2.2 = p1.2
      · have h13 : p3.2 ≠ p1.2 := by
          intro h13
          apply hncol
          rw [h12, h13]
          ring
        exact sampleStats_syy_pos _ p3 p1 hp3 hp1 h13
      · exact sampleStats_syy_pos _ p2 p1 hp2 hp1 h12
    have hne : (sampleStats (offsetSample a (shiftGrid a 1 0) 0 0)).sxy ^ 2
        ≠ (sampleStats (offsetSample a (shiftGrid a 1 0) 0 0)).sxx
          * (sampleStats (offsetSample a (shiftGrid a 1 0) 0 0)).syy := by
      intro heq
      have hall := list_pairs_collinear (offsetSample a (shiftGrid a 1 0) 0 0)
        (sampleMx _) (sampleMy _) hsxx heq
      have e1 := hall p1 hp1
      have e2 := hall p2 hp2
      have e3 := hall p3 hp3
      apply hncol
      have d32 : p3.2 - p1.2
          = (((offsetSample a (shiftGrid a 1 0) 0 0).map
                (fun pp => (pp.1 - sampleMx (offsetSample a (shiftGrid a 1 0) 0 0))
                  * (pp.2 - sampleMy (offsetSample a (shiftGrid a 1 0) 0 0)))).sum
              / ((offsetSample a (shiftGrid a 1 0) 0 0).map
                  (fun pp => (pp.1 - sampleMx (offsetSample a (shiftGrid a 1 0) 0 0)) ^ 2)).sum)
            * (p3.1 - p1.1) := by
        linear_combination e3 - e1
      have d22 : p2.2 - p1.2
          = (((offsetSample a (shiftGrid a 1 0) 0 0).map
                (fun pp => (pp.1 - sampleMx (offsetSample a (shiftGrid a 1 0) 0 0))
                  * (pp.2 - sampleMy (offsetSample a (shiftGrid a 1 0) 0 0)))).sum
              / ((offsetSample a (shiftGrid a 1 0) 0 0).map
                  (fun pp => (pp.1 - sampleMx (offsetSample a (shiftGrid a 1 0) 0 0)) ^ 2)).sum)
            * (p2.1 - p1.1) := by
        linear_combination e2 - e1
      rw [d32, d22]
      ring
    exact pearson_lt_one _ hsxx hsyy hne
  · exact ⟨_, List.mem_flatMap.mpr ⟨3, by decide,
      List.mem_map.mpr ⟨2, by decide, rfl⟩⟩, rfl, rfl⟩
  · exact ⟨_, List.mem_flatMap.mpr ⟨2, by decide,
      List.mem_map.mpr ⟨2, by decide, rfl⟩⟩, rfl, rfl⟩

/-- A concrete 40×26 synthetic raster: row 0 carries the pattern
1, 1, 2, 1, 3, 3, … and the remaining rows a checkerboard of 1s and 2s;
all values are positive, so every overlap pixel passes the mask. -/
def gridA : Grid :=
  { rows := 40, cols := 26
    val := fun i j =>
      some (if i = 0 then
              (if j = 0 then 1 else if j = 1 then 1 else if j = 2 then 2
               else if j = 3 then 1 else 3)
            else (if (i + j) % 2 = 0 then 1 else 2)) }

set_option maxRecDepth 100000 in
/-- C9 (witness): on the concrete raster the scan records correlation
1 at (1, 0) and strictly less at (0, 0), with all hypotheses
(1000-pixel overlaps, distinct values, non-collinear pairs) checked. -/
theorem scan_offsets_peak_at_shift_witness :
    ((statsAt gridA (shiftGrid gridA 1 0) 1 0).sxy : ℝ)
        / (Real.sqrt ((statsAt gridA (shiftGrid gridA 1 0) 1 0).sxx : ℝ)
            * Real.sqrt ((statsAt gridA (shiftGrid gridA 1 0) 1 0).syy : ℝ)) = 1 ∧
    ((statsAt gridA (shiftGrid gridA 1 0) 0 0).sxy : ℝ)
        / (Real.sqrt ((statsAt gridA (shiftGrid gridA 1 0) 0 0).sxx : ℝ)
            * Real.sqrt ((statsAt gridA (shiftGrid gridA 1 0) 0 0).syy : ℝ)) < 1 := by
  have h := scan_offsets_peak_at_shift gridA (by decide) (by decide)
    (1, 1) (2, 2) (by decide) (by decide) (by norm_num)
    (1, 1) (2, 1) (1, 2) (by decide) (by decide) (by decide) (by norm_num)
  exact ⟨h.2.2.1, h.2.2.2.2.1⟩
